import Mathlib

/-!
# Verification of the fractal_explorer escape-time renderer

Shallow embedding of `src/lib.rs` (Mandelbrot / Julia escape-time renderer).
The source does all numeric work in `f64`; the embedding models that
arithmetic exactly over `ℚ` (every constant in the source — 4.0, 0.25,
0.0625, 1.0, 2.0 — is exactly representable in binary floating point, and
every claim under study is about the algebraic structure of the algorithm,
not about rounding).  Machine integer widths never matter on the inputs the
claims quantify over (canvas extents, iteration caps), so `u32`/`usize`
counts are modelled as `ℕ`.  Rust panics (out-of-bounds `Vec` indexing) and
the fallible `ImageData` constructor are modelled with `Option`: `none`
means the call aborts without producing output.  Calls on the canvas
context (`put_image_data`) are modelled as an explicit effect trace.
-/

namespace Fractal

/-- `const BAILOUT: f64 = 4.0` (line 14 of the source). -/
def BAILOUT : ℚ := 4

/-- `enum FractalType` (lines 16-19). -/
inductive FractalType where
  | Mandelbrot
  | Julia
deriving DecidableEq

/-- `struct Dimensions` (lines 21-24). -/
structure Dimensions where
  width : ℕ
  height : ℕ
deriving DecidableEq

/-- `struct Range` (lines 26-29). -/
structure Range where
  min : ℚ
  max : ℚ
deriving DecidableEq

/-- `struct AxesRanges` (lines 31-34). -/
structure AxesRanges where
  x_range : Range
  y_range : Range
deriving DecidableEq

/-- `struct Point` (lines 36-39). -/
structure Point where
  x : ℚ
  y : ℚ
deriving DecidableEq

/-- `fn sum_of_squares` (lines 159-161). -/
def sum_of_squares (val1 val2 : ℚ) : ℚ := val1 * val1 + val2 * val2

/-- `fn diff_of_squares` (lines 163-165). -/
def diff_of_squares (val1 val2 : ℚ) : ℚ := val1 * val1 - val2 * val2

/-- `fn is_in_main_cardioid` (lines 129-131). -/
def is_in_main_cardioid (loc : Point) (temp : ℚ) : Bool :=
  temp * (temp + loc.x - 0.25) ≤ loc.y * loc.y / 4

/-- `fn is_in_period_2_bulb` (lines 133-135). -/
def is_in_period_2_bulb (loc : Point) : Bool :=
  sum_of_squares (loc.x + 1) loc.y ≤ 0.0625

/-- `fn mandel_early_bailout` (lines 125-127). -/
def mandel_early_bailout (loc : Point) : Bool :=
  is_in_main_cardioid loc (sum_of_squares (loc.x - 0.25) loc.y) || is_in_period_2_bulb loc

/-- The body of the while loop in `escape_time_mj` (lines 146-150):
`new_x = c.x + (z.x² - z.y²)`, `new_y = c.y + 2·z.x·z.y`. -/
def escape_step (mandel_point start_val : Point) : Point :=
  { x := mandel_point.x + diff_of_squares start_val.x start_val.y
    y := mandel_point.y + 2 * start_val.x * start_val.y }

/-- The while loop of `escape_time_mj` (lines 145-151).  The loop runs while
`sum_of_squares z.x z.y ≤ BAILOUT && iter_count < max_iters`; the fuel
argument is `max_iters - iter_count`, so fuel 0 is exactly the
`iter_count < max_iters` guard failing. -/
def escape_time_go (mandel_point : Point) (start_val : Point) (iter_count : ℕ) : ℕ → ℕ
  | 0 => iter_count
  | fuel + 1 =>
    if sum_of_squares start_val.x start_val.y ≤ BAILOUT then
      escape_time_go mandel_point (escape_step mandel_point start_val) (iter_count + 1) fuel
    else iter_count

/-- `fn escape_time_mj` (lines 140-154). -/
def escape_time_mj (mandel_point start_val : Point) (max_iters : ℕ) : ℕ :=
  escape_time_go mandel_point start_val 0 max_iters

/-- `fn mandel_iter` (lines 113-119). -/
def mandel_iter (loc : Point) (max_iters : ℕ) : ℕ :=
  if mandel_early_bailout loc then max_iters
  else escape_time_mj loc { x := 0, y := 0 } max_iters

/-- The orbit `z₀, z₁, …` of the recurrence `z_{k+1} = z_k² + c` that the
loop of `escape_time_mj` walks through. -/
def orbit (mandel_point z0 : Point) : ℕ → Point
  | 0 => z0
  | k + 1 => escape_step mandel_point (orbit mandel_point z0 k)

/-- Squared magnitude of a point, the quantity `escape_time_mj` tests
against `BAILOUT`. -/
def normSq (p : Point) : ℚ := sum_of_squares p.x p.y

/-- The scaling closure of `draw_fractal` (line 62):
`|scale_factor, length| |pos| scale_factor * (pos / length)`, evaluated in
exact rational arithmetic.  This is the idealised (reference) semantics of
the mapper expression; the rounding-faithful binary64 evaluation of the
same expression is `scale_f64` below, used by the claim whose content is
IEEE-754 exactness. -/
def scale (scale_factor length pos : ℚ) : ℚ := scale_factor * (pos / length)

/-- `this_coord` (lines 75-78): canvas pixel `(ix, iy)` mapped into the
fractal's coordinate window, evaluated in exact rational arithmetic (the
reference semantics; `this_coord_f64` below evaluates the same expression
with each f64 operation correctly rounded).  `canvas.width - 1` is the
source's `(canvas.width - 1) as f64`; the claims about this function only
quantify over extents ≥ 2, where `ℕ` subtraction agrees with `u32`
subtraction. -/
def this_coord (canvas : Dimensions) (axes_ranges : AxesRanges) (ix iy : ℕ) : Point :=
  { x := axes_ranges.x_range.min +
      scale (axes_ranges.x_range.max - axes_ranges.x_range.min)
        ((canvas.width - 1 : ℕ) : ℚ) (ix : ℚ)
    y := axes_ranges.y_range.min +
      scale (axes_ranges.y_range.max - axes_ranges.y_range.min)
        ((canvas.height - 1 : ℕ) : ℚ) (iy : ℚ) }

/-! ### IEEE-754 binary64 model of the coordinate mapper

The mapper is the one place where a claim (C3) is about floating-point
*exactness*, so the ℚ reference semantics above is not enough for it.  The
following defines correct rounding to binary64 (round to nearest, ties to
even, 53-bit significand, exponents clamped below at the subnormal range)
as a computable function on ℚ, and re-evaluates the mapper expression of
lines 62 and 75-78 with every f64 operation rounded.  The model keeps
overflowed magnitudes (≥ 2¹⁰²⁴) as exact rationals instead of ∞ and has no
NaN; every statement made with it stays inside the finite range where it
coincides with IEEE-754 binary64. -/

/-- Fuel-driven integer base-2 logarithm: for `1 ≤ n` (and fuel ≥ n) this
is the floor of log₂ n. -/
def ilog2go : ℕ → ℕ → ℕ
  | 0, _ => 0
  | fuel + 1, n => if n ≤ 1 then 0 else ilog2go fuel (n / 2) + 1

def ilog2 (n : ℕ) : ℕ := ilog2go n n

/-- Fuel-driven `2^k` by binary exponentiation (fuel ≥ k suffices). -/
def pw2go : ℕ → ℕ → ℕ
  | 0, _ => 1
  | fuel + 1, k =>
    if k = 0 then 1
    else
      let h := pw2go fuel (k / 2)
      if k % 2 = 0 then h * h else 2 * (h * h)

def pw2 (n : ℕ) : ℕ := pw2go n n

/-- The rational power of two `2^e` for a signed exponent. -/
def pow2 (e : ℤ) : ℚ :=
  if 0 ≤ e then ((pw2 e.toNat : ℕ) : ℚ) else 1 / ((pw2 (-e).toNat : ℕ) : ℚ)

/-- Floor of log₂ of a positive rational: the estimate from the integer
logs of numerator and denominator is off by at most one, and the final
comparisons select the exponent `e` with `2^e ≤ a < 2^(e+1)`. -/
def flog2Pos (a : ℚ) : ℤ :=
  let e0 : ℤ := (ilog2 a.num.natAbs : ℤ) - (ilog2 a.den : ℤ)
  if pow2 (e0 + 1) ≤ a then e0 + 1
  else if pow2 e0 ≤ a then e0
  else e0 - 1

/-- Round a nonnegative rational to the nearest integer, ties to even (the
rounding applied to the binary64 significand). -/
def rndInt (f : ℚ) : ℤ :=
  let n : ℤ := f.num / (f.den : ℤ)
  let r : ℚ := f - (n : ℚ)
  if r < 1 / 2 then n
  else if 1 / 2 < r then n + 1
  else if n % 2 = 0 then n else n + 1

/-- Correct rounding of a rational to IEEE-754 binary64: scale the
magnitude so that a normal significand lies in `[2⁵², 2⁵³)` (the exponent
is clamped at −1074, the subnormal ulp), round it to the nearest integer
with ties to even and scale back. -/
def fl (q : ℚ) : ℚ :=
  if q = 0 then 0
  else
    let a : ℚ := if q < 0 then -q else q
    let e : ℤ := max (flog2Pos a - 52) (-1074)
    let m : ℤ := rndInt (a / pow2 e)
    (if q < 0 then -1 else 1) * (m : ℚ) * pow2 e

/-- The four f64 arithmetic operations on finite values: exact rational
result, correctly rounded. -/
def f64_add (a b : ℚ) : ℚ := fl (a + b)

def f64_sub (a b : ℚ) : ℚ := fl (a - b)

def f64_mul (a b : ℚ) : ℚ := fl (a * b)

def f64_div (a b : ℚ) : ℚ := fl (a / b)

/-- The scaling closure (line 62) under f64 semantics. -/
def scale_f64 (scale_factor length pos : ℚ) : ℚ :=
  f64_mul scale_factor (f64_div pos length)

/-- `this_coord` (lines 75-78) under f64 semantics.  The `u32 → f64` casts
of `ix`, `iy`, `width − 1` and `height − 1` are exact (all below 2⁵³), and
the subtraction `max − min` is the one rounded f64 subtraction the source
performs before the per-pixel operations. -/
def this_coord_f64 (canvas : Dimensions) (axes_ranges : AxesRanges) (ix iy : ℕ) : Point :=
  { x := f64_add axes_ranges.x_range.min
      (scale_f64 (f64_sub axes_ranges.x_range.max axes_ranges.x_range.min)
        ((canvas.width - 1 : ℕ) : ℚ) (ix : ℚ))
    y := f64_add axes_ranges.y_range.min
      (scale_f64 (f64_sub axes_ranges.y_range.max axes_ranges.y_range.min)
        ((canvas.height - 1 : ℕ) : ℚ) (iy : ℚ)) }

/-- The `match f_type` selecting the colour-map index (lines 81-84). -/
def colour_index (f_type : FractalType) (mouse_loc coord : Point) (max_iters : ℕ) : ℕ :=
  match f_type with
  | FractalType.Mandelbrot => mandel_iter coord max_iters
  | FractalType.Julia => escape_time_mj mouse_loc coord max_iters

/-- Lines 87-97: the four RGBA bytes pushed for one pixel.  `this_colour[j]`
is a panicking `Vec` index (modelled `none` when absent) and the `as u8`
casts truncate a `u32` channel to its low byte (`% 256`). -/
def pixel_rgba (colour : List ℕ) (is_little_endian : Bool) : Option (List ℕ) :=
  match colour[0]?, colour[1]?, colour[2]? with
  | some r, some g, some b =>
    some (if is_little_endian then [r % 256, g % 256, b % 256, 0xff]
          else [0xff, b % 256, g % 256, r % 256])
  | _, _, _ => none

/-- `&colour_map[idx]` (line 81, a panicking index) followed by the byte
pushes: everything `draw_fractal` appends to `image_data` for one pixel. -/
def render_pixel (colour_map : List (List ℕ)) (is_little_endian : Bool) (idx : ℕ) :
    Option (List ℕ) :=
  (colour_map[idx]?).bind fun colour => pixel_rgba colour is_little_endian

/-- The pixel traversal order of the nested loops (lines 73-74): `iy` outer
over `0..height`, `ix` inner over `0..width`. -/
def pixel_list (canvas : Dimensions) : List (ℕ × ℕ) :=
  ((List.range canvas.height).map fun iy =>
    (List.range canvas.width).map fun ix => (ix, iy)).flatten

/-- The body of the nested loops (lines 73-99): for each pixel, look up the
colour of its iteration count and append the four RGBA bytes.  The colour
index per pixel is abstracted into `colour_of` so that the same loop serves
both arms of the `match` (the Mandelbrot arm never reads the mouse). -/
def write_pixels (colour_map : List (List ℕ)) (is_little_endian : Bool)
    (colour_of : ℕ × ℕ → ℕ) : List (ℕ × ℕ) → Option (List ℕ)
  | [] => some []
  | p :: ps =>
    (render_pixel colour_map is_little_endian (colour_of p)).bind fun bytes =>
      (write_pixels colour_map is_little_endian colour_of ps).bind fun rest =>
        some (bytes ++ rest)

/-- The fully assembled `image_data` vector of `draw_fractal`. -/
def image_data (canvas : Dimensions) (axes_ranges : AxesRanges) (mouse_loc : Point)
    (max_iters : ℕ) (c_map : List (List ℕ)) (is_little_endian : Bool)
    (f_type : FractalType) : Option (List ℕ) :=
  write_pixels c_map is_little_endian
    (fun p => colour_index f_type mouse_loc (this_coord canvas axes_ranges p.1 p.2) max_iters)
    (pixel_list canvas)

/-- The calls `draw_fractal` makes on the canvas rendering context. -/
inductive DisplayAction where
  | put_image_data (data : List ℕ) (dx dy : ℚ)
deriving DecidableEq

/-- What a successful `draw_fractal` call produces: the assembled byte
buffer and the trace of display-surface calls it performed. -/
structure RenderOutput where
  data : List ℕ
  effects : List DisplayAction
deriving DecidableEq

/-- `fn draw_fractal` (lines 47-107).  After the loops,
`ImageData::new_with_u8_clamped_array_and_sh` (line 101) fails when a
dimension is zero or the data length is not `width·height·4`; otherwise
`ctx.put_image_data(&image_data, 0.0, 0.0)` (line 106) delivers the buffer
to the canvas. -/
def draw_fractal (canvas : Dimensions) (axes_ranges : AxesRanges) (mouse_loc : Point)
    (max_iters : ℕ) (c_map : List (List ℕ)) (is_little_endian : Bool)
    (f_type : FractalType) : Option RenderOutput :=
  (image_data canvas axes_ranges mouse_loc max_iters c_map is_little_endian f_type).bind
    fun data =>
      if canvas.width = 0 ∨ canvas.height = 0 ∨
          data.length ≠ canvas.width * canvas.height * 4 then none
      else some { data := data, effects := [DisplayAction.put_image_data data 0 0] }

/-- `pub fn draw_mandel` (lines 183-214). -/
def draw_mandel (width height : ℕ) (x_max x_min y_max y_min : ℚ) (max_iters : ℕ)
    (c_map : List (List ℕ)) (is_little_endian : Bool) : Option RenderOutput :=
  draw_fractal { width := width, height := height }
    { x_range := { min := x_min, max := x_max }, y_range := { min := y_min, max := y_max } }
    { x := 0, y := 0 } max_iters c_map is_little_endian FractalType.Mandelbrot

/-- `pub fn draw_julia` (lines 220-256). -/
def draw_julia (width height : ℕ) (x_max x_min y_max y_min mandel_x mandel_y : ℚ)
    (max_iters : ℕ) (c_map : List (List ℕ)) (is_little_endian : Bool) :
    Option RenderOutput :=
  draw_fractal { width := width, height := height }
    { x_range := { min := x_min, max := x_max }, y_range := { min := y_min, max := y_max } }
    { x := mandel_x, y := mandel_y } max_iters c_map is_little_endian FractalType.Julia

/-! ## Properties of the escape-time loop -/

/-- The structural half of the fast-path property: a point inside the
cardioid/bulb test short-circuits `mandel_iter` to `max_iters` without
entering the iteration loop.  (The semantic half — that the exact
recurrence never escapes anywhere on the closed cardioid or bulb — is a
classical complex-dynamics theorem and is not developed here.) -/
lemma mandel_iter_fast_path (loc : Point) (m : ℕ)
    (h : mandel_early_bailout loc = true) : mandel_iter loc m = m := by
  simp [mandel_iter, h]

lemma orbit_shift (c z : Point) : ∀ k : ℕ, orbit c z (k + 1) = orbit c (escape_step c z) k := by
  intro k
  induction k with
  | zero => rfl
  | succ n ih => exact congrArg (escape_step c) ih

lemma escape_time_go_add (c : Point) :
    ∀ (fuel : ℕ) (z : Point) (cnt : ℕ),
      escape_time_go c z cnt fuel = cnt + escape_time_go c z 0 fuel := by
  intro fuel
  induction fuel with
  | zero => intro z cnt; simp [escape_time_go]
  | succ n ih =>
    intro z cnt
    simp only [escape_time_go]
    split
    · rw [ih (escape_step c z) (cnt + 1), ih (escape_step c z) (0 + 1)]
      omega
    · omega

lemma escape_time_go_le (c : Point) :
    ∀ (fuel : ℕ) (z : Point), escape_time_go c z 0 fuel ≤ fuel := by
  intro fuel
  induction fuel with
  | zero => intro z; simp [escape_time_go]
  | succ n ih =>
    intro z
    simp only [escape_time_go]
    split
    · rw [escape_time_go_add c n (escape_step c z) (0 + 1)]
      have := ih (escape_step c z)
      omega
    · omega

lemma escape_time_go_before (c : Point) :
    ∀ (fuel : ℕ) (z : Point) (j : ℕ), j < escape_time_go c z 0 fuel →
      normSq (orbit c z j) ≤ BAILOUT := by
  intro fuel
  induction fuel with
  | zero => intro z j h; simp [escape_time_go] at h
  | succ n ih =>
    intro z j h
    simp only [escape_time_go] at h
    by_cases hc : sum_of_squares z.x z.y ≤ BAILOUT
    · rw [if_pos hc, escape_time_go_add c n (escape_step c z) (0 + 1)] at h
      match j with
      | 0 => exact hc
      | j' + 1 =>
        rw [orbit_shift]
        exact ih (escape_step c z) j' (by omega)
    · rw [if_neg hc] at h
      omega

lemma escape_time_go_hit (c : Point) :
    ∀ (fuel : ℕ) (z : Point), escape_time_go c z 0 fuel < fuel →
      BAILOUT < normSq (orbit c z (escape_time_go c z 0 fuel)) := by
  intro fuel
  induction fuel with
  | zero => intro z h; omega
  | succ n ih =>
    intro z h
    simp only [escape_time_go] at h ⊢
    by_cases hc : sum_of_squares z.x z.y ≤ BAILOUT
    · rw [if_pos hc, escape_time_go_add c n (escape_step c z) (0 + 1)] at h ⊢
      have h' : escape_time_go c (escape_step c z) 0 n < n := by omega
      have hrec := ih (escape_step c z) h'
      rw [show 0 + 1 + escape_time_go c (escape_step c z) 0 n =
        escape_time_go c (escape_step c z) 0 n + 1 by omega, orbit_shift]
      exact hrec
    · rw [if_neg hc] at h ⊢
      exact not_le.mp hc

lemma escape_time_go_full (c : Point) :
    ∀ (fuel : ℕ) (z : Point),
      (∀ k, k < fuel → normSq (orbit c z k) ≤ BAILOUT) →
      escape_time_go c z 0 fuel = fuel := by
  intro fuel
  induction fuel with
  | zero => intro z _; rfl
  | succ n ih =>
    intro z h
    have h0 : sum_of_squares z.x z.y ≤ BAILOUT := h 0 (by omega)
    simp only [escape_time_go]
    rw [if_pos h0, escape_time_go_add c n (escape_step c z) (0 + 1)]
    have hn : escape_time_go c (escape_step c z) 0 n = n := by
      apply ih
      intro k hk
      have hk1 := h (k + 1) (by omega)
      rwa [orbit_shift] at hk1
    omega

lemma mandel_iter_le (loc : Point) (m : ℕ) : mandel_iter loc m ≤ m := by
  unfold mandel_iter
  split
  · exact le_rfl
  · exact escape_time_go_le loc m _

/-- C1: for every parameter `c`, start value `z₀` and iteration cap `m`,
`escape_time_mj` returns a count in `[0, m]` (and so does `mandel_iter` in
Mandelbrot mode); the count is exactly the number of iterations of
`z_{k+1} = z_k² + c` performed before the squared magnitude exceeds the
bailout constant 4.0 or the cap is reached: every iterate strictly before
the returned count is still within the bailout, a count below the cap
points at an iterate beyond the bailout, and an orbit that never exceeds
the bailout within `m` steps yields exactly `m`. -/
theorem C1_escape_time_exact (c z0 : Point) (m : ℕ) :
    escape_time_mj c z0 m ≤ m ∧
    mandel_iter c m ≤ m ∧
    (∀ j, j < escape_time_mj c z0 m → normSq (orbit c z0 j) ≤ BAILOUT) ∧
    (escape_time_mj c z0 m < m → BAILOUT < normSq (orbit c z0 (escape_time_mj c z0 m))) ∧
    ((∀ k, k < m → normSq (orbit c z0 k) ≤ BAILOUT) → escape_time_mj c z0 m = m) :=
  ⟨escape_time_go_le c m z0, mandel_iter_le c m, escape_time_go_before c m z0,
    escape_time_go_hit c m z0, escape_time_go_full c m z0⟩

/-- Witness for C1 at the concrete input `c = (2,0)`, `z₀ = (0,0)`, `m = 5`:
the count is at most 5, and since it is below 5 the orbit has escaped at it. -/
theorem C1_escape_time_exact_witness :
    escape_time_mj ⟨2, 0⟩ ⟨0, 0⟩ 5 ≤ 5 ∧
      BAILOUT < normSq (orbit ⟨2, 0⟩ ⟨0, 0⟩ (escape_time_mj ⟨2, 0⟩ ⟨0, 0⟩ 5)) :=
  ⟨(C1_escape_time_exact ⟨2, 0⟩ ⟨0, 0⟩ 5).1,
   (C1_escape_time_exact ⟨2, 0⟩ ⟨0, 0⟩ 5).2.2.2.1 (by with_unfolding_all decide)⟩

/-! ## Known points (C4) -/

lemma escape_step_origin : escape_step ⟨0, 0⟩ ⟨0, 0⟩ = ⟨0, 0⟩ := by
  norm_num [escape_step, diff_of_squares]

lemma escape_time_origin (m : ℕ) : escape_time_mj ⟨0, 0⟩ ⟨0, 0⟩ m = m := by
  suffices h : ∀ fuel cnt, escape_time_go ⟨0, 0⟩ ⟨0, 0⟩ cnt fuel = cnt + fuel by
    have := h m 0
    simpa [escape_time_mj] using this
  intro fuel
  induction fuel with
  | zero => intro cnt; simp [escape_time_go]
  | succ n ih =>
    intro cnt
    simp only [escape_time_go]
    split
    case isTrue h => rw [escape_step_origin, ih]; omega
    case isFalse h => exact absurd (by norm_num [sum_of_squares, BAILOUT]) h

lemma go_escaped : ∀ (k cnt : ℕ), escape_time_go ⟨2, 0⟩ ⟨6, 0⟩ cnt k = cnt := by
  intro k cnt
  cases k with
  | zero => rfl
  | succ n =>
    simp only [escape_time_go]
    split
    case isTrue h => exact absurd h (by norm_num [sum_of_squares, BAILOUT])
    case isFalse h => rfl

lemma escape_time_two (m : ℕ) (hm : 2 ≤ m) : escape_time_mj ⟨2, 0⟩ ⟨0, 0⟩ m = 2 := by
  obtain ⟨k, rfl⟩ : ∃ k, m = k + 1 + 1 := ⟨m - 2, by omega⟩
  have h1 : escape_step ⟨2, 0⟩ ⟨0, 0⟩ = ⟨2, 0⟩ := by norm_num [escape_step, diff_of_squares]
  have h2 : escape_step ⟨2, 0⟩ ⟨2, 0⟩ = ⟨6, 0⟩ := by norm_num [escape_step, diff_of_squares]
  unfold escape_time_mj
  simp only [escape_time_go]
  split
  case isFalse h => exact absurd (by norm_num [sum_of_squares, BAILOUT]) h
  case isTrue h =>
    rw [h1]
    simp only [escape_time_go]
    split
    case isFalse h' => exact absurd (by norm_num [sum_of_squares, BAILOUT]) h'
    case isTrue h' =>
      rw [h2, go_escaped]

/-- C4 counterexample: the claim says the Mandelbrot escape-time computation
for `(2,0)` returns 1 for every `max_iterations ≥ 1`, but at
`max_iterations = 2` the code returns 2: after the first iteration
`z₁ = (2,0)` has squared magnitude exactly 4.0, which does not *exceed* the
bailout (the test is strict), so the loop performs a second iteration. -/
theorem C4_counterexample : mandel_iter ⟨2, 0⟩ 2 = 2 ∧ mandel_iter ⟨2, 0⟩ 2 ≠ 1 := by
  with_unfolding_all decide

/-- C4 amended: the origin never escapes and returns `max_iterations`
(both through `mandel_iter` and through the raw recurrence); the point
`(2,0)` escapes on iteration 2 — `|z₁|² = 4` only equals the bailout — so
for every `max_iterations ≥ 2` the computation returns 2, and at
`max_iterations = 1` it returns 1 (the cap). -/
theorem C4_known_points (m : ℕ) (hm : 2 ≤ m) :
    mandel_iter ⟨0, 0⟩ m = m ∧ escape_time_mj ⟨0, 0⟩ ⟨0, 0⟩ m = m ∧
    mandel_iter ⟨2, 0⟩ m = 2 ∧ mandel_iter ⟨2, 0⟩ 1 = 1 := by
  have hb : mandel_early_bailout ⟨2, 0⟩ = false := by with_unfolding_all decide
  have hb0 : mandel_early_bailout ⟨0, 0⟩ = true := by with_unfolding_all decide
  refine ⟨?_, escape_time_origin m, ?_, by with_unfolding_all decide⟩
  · simp [mandel_iter, hb0]
  · simp [mandel_iter, hb, escape_time_two m hm]

/-- Witness for C4 at `max_iterations = 3`. -/
theorem C4_known_points_witness :
    mandel_iter ⟨0, 0⟩ 3 = 3 ∧ escape_time_mj ⟨0, 0⟩ ⟨0, 0⟩ 3 = 3 ∧
    mandel_iter ⟨2, 0⟩ 3 = 2 ∧ mandel_iter ⟨2, 0⟩ 1 = 1 :=
  C4_known_points 3 (by omega)

/-! ## Conjugation symmetry (C8) -/

lemma sum_of_squares_neg (a b : ℚ) : sum_of_squares a (-b) = sum_of_squares a b := by
  simp [sum_of_squares]

lemma escape_time_go_conj (x y : ℚ) :
    ∀ (fuel : ℕ) (a b : ℚ) (cnt : ℕ),
      escape_time_go ⟨x, -y⟩ ⟨a, -b⟩ cnt fuel = escape_time_go ⟨x, y⟩ ⟨a, b⟩ cnt fuel := by
  intro fuel
  induction fuel with
  | zero => intro a b cnt; rfl
  | succ n ih =>
    intro a b cnt
    have hstep : escape_step ⟨x, -y⟩ ⟨a, -b⟩ =
        ⟨x + diff_of_squares a b, -(y + 2 * a * b)⟩ := by
      simp [escape_step, diff_of_squares]
      ring
    have hstep2 : escape_step ⟨x, y⟩ ⟨a, b⟩ = ⟨x + diff_of_squares a b, y + 2 * a * b⟩ := rfl
    simp only [escape_time_go, sum_of_squares_neg]
    split
    · rw [hstep, hstep2]
      exact ih (x + diff_of_squares a b) (y + 2 * a * b) (cnt + 1)
    · rfl

lemma mandel_early_bailout_conj (x y : ℚ) :
    mandel_early_bailout ⟨x, -y⟩ = mandel_early_bailout ⟨x, y⟩ := by
  simp [mandel_early_bailout, is_in_main_cardioid, is_in_period_2_bulb, sum_of_squares]

/-- C8: the Mandelbrot escape-time computation is symmetric about the real
axis: for every point `(x, y)` and every cap, `mandel_iter` — including its
fast-path cardioid / period-2-bulb tests — and the raw origin-seeded
recurrence give the same count at `(x, -y)` as at `(x, y)`. -/
theorem C8_mirror_symmetry (x y : ℚ) (m : ℕ) :
    mandel_iter ⟨x, -y⟩ m = mandel_iter ⟨x, y⟩ m ∧
    escape_time_mj ⟨x, -y⟩ ⟨0, 0⟩ m = escape_time_mj ⟨x, y⟩ ⟨0, 0⟩ m ∧
    mandel_early_bailout ⟨x, -y⟩ = mandel_early_bailout ⟨x, y⟩ := by
  have he : escape_time_mj ⟨x, -y⟩ ⟨0, 0⟩ m = escape_time_mj ⟨x, y⟩ ⟨0, 0⟩ m := by
    have h := escape_time_go_conj x y m 0 0 0
    simpa [escape_time_mj, neg_zero] using h
  refine ⟨?_, he, mandel_early_bailout_conj x y⟩
  unfold mandel_iter
  rw [mandel_early_bailout_conj x y]
  split
  · rfl
  · exact he

/-! ## Coordinate mapper (C3)

Concrete evaluations of the binary64 model.  Pure-ℕ facts (`ilog2`, `pw2`)
go through `decide`; ℚ literal arithmetic goes through `norm_num`; the
numeral 9007199254740992 is 2⁵³ and 4503599627370496 is 2⁵². -/

lemma fl_pos_eval (q : ℚ) (e m : ℤ) (h0 : ¬ q = 0) (h1 : ¬ q < 0)
    (he : max (flog2Pos q - 52) (-1074) = e)
    (hm : rndInt (q / pow2 e) = m) :
    fl q = (m : ℚ) * pow2 e := by
  simp only [fl, if_neg h0, if_neg h1, he, hm, one_mul]

lemma fl_neg_eval (q : ℚ) (e m : ℤ) (h0 : ¬ q = 0) (h1 : q < 0)
    (he : max (flog2Pos (-q) - 52) (-1074) = e)
    (hm : rndInt (-q / pow2 e) = m) :
    fl q = -1 * (m : ℚ) * pow2 e := by
  simp only [fl, if_neg h0, if_pos h1, he, hm]

lemma fl_zero : fl 0 = 0 := by simp [fl]

lemma pow2_zero : pow2 0 = 1 := by
  have h0 : pow2 0 = ((pw2 0 : ℕ) : ℚ) := by rfl
  have h : pw2 0 = 1 := by decide
  rw [h0, h]; norm_num

lemma pow2_one : pow2 1 = 2 := by
  have h0 : pow2 1 = ((pw2 1 : ℕ) : ℚ) := by rfl
  have h : pw2 1 = 2 := by decide
  rw [h0, h]; norm_num

lemma pow2_neg1 : pow2 (-1) = 1 / 2 := by
  have h0 : pow2 (-1) = 1 / ((pw2 1 : ℕ) : ℚ) := by rfl
  have h : pw2 1 = 2 := by decide
  rw [h0, h]; norm_num

lemma pow2_neg52 : pow2 (-52) = 1 / 4503599627370496 := by
  have h0 : pow2 (-52) = 1 / ((pw2 52 : ℕ) : ℚ) := by rfl
  have h : pw2 52 = 4503599627370496 := by decide
  rw [h0, h]; norm_num

lemma pow2_neg53 : pow2 (-53) = 1 / 9007199254740992 := by
  have h0 : pow2 (-53) = 1 / ((pw2 53 : ℕ) : ℚ) := by rfl
  have h : pw2 53 = 9007199254740992 := by decide
  rw [h0, h]; norm_num

lemma pow2_neg105 : pow2 (-105) = 1 / 40564819207303340847894502572032 := by
  have h0 : pow2 (-105) = 1 / ((pw2 105 : ℕ) : ℚ) := by rfl
  have h : pw2 105 = 40564819207303340847894502572032 := by decide
  rw [h0, h]; norm_num

/-- `1 + 2⁻⁵³` is exactly halfway between 1 and `1 + 2⁻⁵²`; ties-to-even
rounds it down to 1. -/
lemma fl_one_add_ulp : fl (9007199254740993 / 9007199254740992) = 1 := by
  have hflog : flog2Pos (9007199254740993 / 9007199254740992) = 0 := by
    have h1 : ilog2 9007199254740993 = 53 := by decide
    have h2 : ilog2 9007199254740992 = 53 := by decide
    have hn : (9007199254740993 / 9007199254740992 : ℚ).num = 9007199254740993 := by norm_num
    have hd : (9007199254740993 / 9007199254740992 : ℚ).den = 9007199254740992 := by norm_num
    norm_num [flog2Pos, hn, hd, h1, h2, pow2_one, pow2_zero]
  have he : max (flog2Pos ((9007199254740993 : ℚ) / 9007199254740992) - 52) (-1074) = -52 := by
    rw [hflog]; decide
  have hm : rndInt ((9007199254740993 / 9007199254740992 : ℚ) / pow2 (-52)) =
      4503599627370496 := by
    have hdivq : (9007199254740993 / 9007199254740992 : ℚ) / pow2 (-52) =
        9007199254740993 / 2 := by
      rw [pow2_neg52]; norm_num
    rw [hdivq]
    have hn : (9007199254740993 / 2 : ℚ).num = 9007199254740993 := by norm_num
    have hd : (9007199254740993 / 2 : ℚ).den = 2 := by norm_num
    norm_num [rndInt, hn, hd]
  rw [fl_pos_eval _ (-52) 4503599627370496 (by norm_num) (by norm_num) he hm, pow2_neg52]
  norm_num

lemma fl_one : fl 1 = 1 := by
  have hflog : flog2Pos 1 = 0 := by
    have h1 : ilog2 1 = 0 := by decide
    have hn : (1 : ℚ).num = 1 := by norm_num
    have hd : (1 : ℚ).den = 1 := by norm_num
    norm_num [flog2Pos, hn, hd, h1, pow2_one, pow2_zero]
  have he : max (flog2Pos (1 : ℚ) - 52) (-1074) = -52 := by rw [hflog]; decide
  have hm : rndInt ((1 : ℚ) / pow2 (-52)) = 4503599627370496 := by
    have hdivq : (1 : ℚ) / pow2 (-52) = 4503599627370496 := by rw [pow2_neg52]; norm_num
    rw [hdivq]
    have hn : (4503599627370496 : ℚ).num = 4503599627370496 := by norm_num
    have hd : (4503599627370496 : ℚ).den = 1 := by norm_num
    norm_num [rndInt, hn, hd]
  rw [fl_pos_eval _ (-52) 4503599627370496 (by norm_num) (by norm_num) he hm, pow2_neg52]
  norm_num

/-- `1 − 2⁻⁵³ = (2⁵³ − 1)·2⁻⁵³` has a 53-bit significand: it is exactly
representable and rounds to itself. -/
lemma fl_one_sub_ulp :
    fl (9007199254740991 / 9007199254740992) = 9007199254740991 / 9007199254740992 := by
  have hflog : flog2Pos (9007199254740991 / 9007199254740992) = -1 := by
    have h1 : ilog2 9007199254740991 = 52 := by decide
    have h2 : ilog2 9007199254740992 = 53 := by decide
    have hn : (9007199254740991 / 9007199254740992 : ℚ).num = 9007199254740991 := by norm_num
    have hd : (9007199254740991 / 9007199254740992 : ℚ).den = 9007199254740992 := by norm_num
    norm_num [flog2Pos, hn, hd, h1, h2, pow2_zero, pow2_neg1]
  have he : max (flog2Pos ((9007199254740991 : ℚ) / 9007199254740992) - 52) (-1074) = -53 := by
    rw [hflog]; decide
  have hm : rndInt ((9007199254740991 / 9007199254740992 : ℚ) / pow2 (-53)) =
      9007199254740991 := by
    have hdivq : (9007199254740991 / 9007199254740992 : ℚ) / pow2 (-53) =
        9007199254740991 := by
      rw [pow2_neg53]; norm_num
    rw [hdivq]
    have hn : (9007199254740991 : ℚ).num = 9007199254740991 := by norm_num
    have hd : (9007199254740991 : ℚ).den = 1 := by norm_num
    norm_num [rndInt, hn, hd]
  rw [fl_pos_eval _ (-53) 9007199254740991 (by norm_num) (by norm_num) he hm, pow2_neg53]
  norm_num

/-- `−2⁻⁵³` is exactly representable (subnormal range is far below). -/
lemma fl_neg_ulp : fl (-(1 / 9007199254740992)) = -(1 / 9007199254740992) := by
  have hneg : -(-(1 / 9007199254740992) : ℚ) = 1 / 9007199254740992 := by norm_num
  have hflog : flog2Pos (1 / 9007199254740992) = -53 := by
    have h1 : ilog2 1 = 0 := by decide
    have h2 : ilog2 9007199254740992 = 53 := by decide
    have hn : (1 / 9007199254740992 : ℚ).num = 1 := by norm_num
    have hd : (1 / 9007199254740992 : ℚ).den = 9007199254740992 := by norm_num
    norm_num [flog2Pos, hn, hd, h1, h2, pow2_neg52, pow2_neg53]
  have he : max (flog2Pos (-(-(1 / 9007199254740992) : ℚ)) - 52) (-1074) = -105 := by
    rw [hneg, hflog]; decide
  have hm : rndInt (-(-(1 / 9007199254740992) : ℚ) / pow2 (-105)) = 4503599627370496 := by
    rw [hneg]
    have hdivq : (1 / 9007199254740992 : ℚ) / pow2 (-105) = 4503599627370496 := by
      rw [pow2_neg105]; norm_num
    rw [hdivq]
    have hn : (4503599627370496 : ℚ).num = 4503599627370496 := by norm_num
    have hd : (4503599627370496 : ℚ).den = 1 := by norm_num
    norm_num [rndInt, hn, hd]
  rw [fl_neg_eval _ (-105) 4503599627370496 (by norm_num) (by norm_num) he hm, pow2_neg105]
  norm_num

/-- The f64 mapper on the window `[−2⁻⁵³, 1]`, pixel n−1 = 1 of 2: the
subtraction `1 − (−2⁻⁵³)` rounds to 1 (tie to even), `1/1` and `·1` are
exact, and the final addition rounds `−2⁻⁵³ + 1` to `1 − 2⁻⁵³`. -/
lemma coord_f64_upper :
    (this_coord_f64 ⟨2, 2⟩ ⟨⟨-(1 / 9007199254740992), 1⟩, ⟨0, 1⟩⟩ 1 0).x =
      1 - 1 / 9007199254740992 := by
  have hsub : f64_sub 1 (-(1 / 9007199254740992)) = 1 := by
    have harg : (1 : ℚ) - -(1 / 9007199254740992) = 9007199254740993 / 9007199254740992 := by
      norm_num
    rw [f64_sub, harg, fl_one_add_ulp]
  have hdiv : f64_div 1 1 = 1 := by
    have harg : (1 : ℚ) / 1 = 1 := by norm_num
    rw [f64_div, harg, fl_one]
  have hmul : f64_mul 1 1 = 1 := by
    have harg : (1 : ℚ) * 1 = 1 := by norm_num
    rw [f64_mul, harg, fl_one]
  have hadd : f64_add (-(1 / 9007199254740992)) 1 = 9007199254740991 / 9007199254740992 := by
    have harg : (-(1 / 9007199254740992) : ℚ) + 1 = 9007199254740991 / 9007199254740992 := by
      norm_num
    rw [f64_add, harg, fl_one_sub_ulp]
  show f64_add (-(1 / 9007199254740992))
      (scale_f64 (f64_sub 1 (-(1 / 9007199254740992))) ((2 - 1 : ℕ) : ℚ) ((1 : ℕ) : ℚ)) =
    1 - 1 / 9007199254740992
  have hc1 : ((2 - 1 : ℕ) : ℚ) = 1 := by norm_num
  have hc2 : ((1 : ℕ) : ℚ) = 1 := by norm_num
  simp only [hc1, hc2, scale_f64]
  rw [hsub, hdiv, hmul, hadd]
  norm_num

/-- The f64 mapper on the same window, pixel 0: the scaled offset is an
exact 0 and the addition returns min unchanged. -/
lemma coord_f64_lower :
    (this_coord_f64 ⟨2, 2⟩ ⟨⟨-(1 / 9007199254740992), 1⟩, ⟨0, 1⟩⟩ 0 0).x =
      -(1 / 9007199254740992) := by
  have hsub : f64_sub 1 (-(1 / 9007199254740992)) = 1 := by
    have harg : (1 : ℚ) - -(1 / 9007199254740992) = 9007199254740993 / 9007199254740992 := by
      norm_num
    rw [f64_sub, harg, fl_one_add_ulp]
  have hdiv : f64_div 0 1 = 0 := by
    have harg : (0 : ℚ) / 1 = 0 := by norm_num
    rw [f64_div, harg, fl_zero]
  have hmul : f64_mul 1 0 = 0 := by
    have harg : (1 : ℚ) * 0 = 0 := by norm_num
    rw [f64_mul, harg, fl_zero]
  have hadd : f64_add (-(1 / 9007199254740992)) 0 = -(1 / 9007199254740992) := by
    have harg : (-(1 / 9007199254740992) : ℚ) + 0 = -(1 / 9007199254740992) := by norm_num
    rw [f64_add, harg, fl_neg_ulp]
  show f64_add (-(1 / 9007199254740992))
      (scale_f64 (f64_sub 1 (-(1 / 9007199254740992))) ((2 - 1 : ℕ) : ℚ) ((0 : ℕ) : ℚ)) =
    -(1 / 9007199254740992)
  have hc1 : ((2 - 1 : ℕ) : ℚ) = 1 := by norm_num
  have hc0 : ((0 : ℕ) : ℚ) = 0 := by norm_num
  simp only [hc1, hc0, scale_f64]
  rw [hsub, hdiv, hmul, hadd]

/-- C3 counterexample: the claim says pixel `n − 1` maps to exactly `max`;
under the program's IEEE-754 binary64 arithmetic this fails: with the
x-window `[−2⁻⁵³, 1]` on a 2-pixel-wide canvas, `max − min = 1 + 2⁻⁵³`
rounds to `1.0` (tie to even), `i/(n−1)` and the multiplication are exact,
and the final addition rounds `−2⁻⁵³ + 1.0` to `1 − 2⁻⁵³ ≠ max`
(9007199254740992 = 2⁵³). -/
theorem C3_counterexample :
    (this_coord_f64 ⟨2, 2⟩ ⟨⟨-(1 / 9007199254740992), 1⟩, ⟨0, 1⟩⟩ 1 0).x ≠ 1 ∧
    (this_coord_f64 ⟨2, 2⟩ ⟨⟨-(1 / 9007199254740992), 1⟩, ⟨0, 1⟩⟩ 1 0).x =
      1 - 1 / 9007199254740992 := by
  refine ⟨?_, coord_f64_upper⟩
  rw [coord_f64_upper]
  norm_num

/-- C3 amended: on each axis of extent `n ≥ 2` with window `[min, max]`,
the coordinate mapper computes `min + (max − min) * (i / (n − 1))` (each
operation evaluated in f64).  In exact rational arithmetic this places
pixel 0 at exactly `min` and pixel `n − 1` at exactly `max` on both axes;
under the program's f64 rounding the exactness at the upper extreme can
fail by one ulp — for the x-window `[−2⁻⁵³, 1]` pixel `n − 1` maps to
`1 − 2⁻⁵³`, not `max` — while pixel 0 still maps to exactly `min` there. -/
theorem C3_coordinate_mapper_amended (canvas : Dimensions) (axes_ranges : AxesRanges) (ix iy : ℕ)
    (hw : 2 ≤ canvas.width) (hh : 2 ≤ canvas.height) :
    (this_coord canvas axes_ranges ix iy).x =
      axes_ranges.x_range.min + (axes_ranges.x_range.max - axes_ranges.x_range.min) *
        ((ix : ℚ) / ((canvas.width : ℚ) - 1)) ∧
    (this_coord canvas axes_ranges 0 iy).x = axes_ranges.x_range.min ∧
    (this_coord canvas axes_ranges (canvas.width - 1) iy).x = axes_ranges.x_range.max ∧
    (this_coord canvas axes_ranges ix 0).y = axes_ranges.y_range.min ∧
    (this_coord canvas axes_ranges ix (canvas.height - 1)).y = axes_ranges.y_range.max ∧
    (this_coord_f64 ⟨2, 2⟩ ⟨⟨-(1 / 9007199254740992), 1⟩, ⟨0, 1⟩⟩ 0 0).x =
      -(1 / 9007199254740992) ∧
    (this_coord_f64 ⟨2, 2⟩ ⟨⟨-(1 / 9007199254740992), 1⟩, ⟨0, 1⟩⟩ 1 0).x =
      1 - 1 / 9007199254740992 := by
  have hw1 : ((canvas.width - 1 : ℕ) : ℚ) = (canvas.width : ℚ) - 1 := by
    have h1 : (1 : ℕ) ≤ canvas.width := by omega
    push_cast [h1]
    ring
  have hh1 : ((canvas.height - 1 : ℕ) : ℚ) = (canvas.height : ℚ) - 1 := by
    have h1 : (1 : ℕ) ≤ canvas.height := by omega
    push_cast [h1]
    ring
  have hwne : ((canvas.width - 1 : ℕ) : ℚ) ≠ 0 := by
    rw [hw1]
    have h2 : (2 : ℚ) ≤ (canvas.width : ℚ) := by exact_mod_cast hw
    intro hc
    linarith
  have hhne : ((canvas.height - 1 : ℕ) : ℚ) ≠ 0 := by
    rw [hh1]
    have h2 : (2 : ℚ) ≤ (canvas.height : ℚ) := by exact_mod_cast hh
    intro hc
    linarith
  refine ⟨?_, ?_, ?_, ?_, ?_, coord_f64_lower, coord_f64_upper⟩
  · simp only [this_coord, scale, hw1]
  · simp [this_coord, scale]
  · simp only [this_coord, scale, div_self hwne]
    ring
  · simp [this_coord, scale]
  · simp only [this_coord, scale, div_self hhne]
    ring

/-- Witness for C3 on a 3×2 canvas with x-window `[-2, 1]`: in the exact
reference semantics pixel 0 maps to -2 and pixel 2 (= width−1) maps to 1,
and in f64 the window `[−2⁻⁵³, 1]` maps its last pixel to `1 − 2⁻⁵³`. -/
theorem C3_coordinate_mapper_amended_witness :
    (this_coord ⟨3, 2⟩ ⟨⟨-2, 1⟩, ⟨-1, 1⟩⟩ 0 0).x = -2 ∧
    (this_coord ⟨3, 2⟩ ⟨⟨-2, 1⟩, ⟨-1, 1⟩⟩ 2 0).x = 1 ∧
    (this_coord_f64 ⟨2, 2⟩ ⟨⟨-(1 / 9007199254740992), 1⟩, ⟨0, 1⟩⟩ 1 0).x =
      1 - 1 / 9007199254740992 :=
  ⟨(C3_coordinate_mapper_amended ⟨3, 2⟩ ⟨⟨-2, 1⟩, ⟨-1, 1⟩⟩ 0 0 (by decide) (by decide)).2.1,
   (C3_coordinate_mapper_amended ⟨3, 2⟩ ⟨⟨-2, 1⟩, ⟨-1, 1⟩⟩ 0 0 (by decide) (by decide)).2.2.1,
   (C3_coordinate_mapper_amended ⟨3, 2⟩ ⟨⟨-2, 1⟩, ⟨-1, 1⟩⟩ 0 0
     (by decide) (by decide)).2.2.2.2.2.2⟩

/-! ## Channel truncation (C9) -/

/-- C9: for a palette entry whose first three channels are `r`, `g`, `b`
(stored in a wider unsigned integer), the bytes emitted into the pixel
buffer are the values truncated to their low 8 bits (`% 256`), in both the
little-endian layout `[R, G, B, 0xff]` and the big-endian layout
`[0xff, B, G, R]`; values above 255 are never clamped or rejected. -/
theorem C9_channel_truncation (r g b : ℕ) (rest : List ℕ) (le : Bool) :
    pixel_rgba (r :: g :: b :: rest) le =
      some (if le then [r % 256, g % 256, b % 256, 0xff]
            else [0xff, b % 256, g % 256, r % 256]) := by
  cases le <;> simp [pixel_rgba]

/-! ## Mouse-location independence in Mandelbrot mode (C10) -/

/-- C10: in Mandelbrot mode `draw_fractal` never reads the mouse location —
two calls differing only in `mouse_loc` produce identical results — and
`draw_mandel` simply passes the origin for it. -/
theorem C10_mandelbrot_ignores_mouse (canvas : Dimensions) (axes_ranges : AxesRanges)
    (max_iters : ℕ) (c_map : List (List ℕ)) (is_le : Bool) (mouse1 mouse2 : Point) :
    draw_fractal canvas axes_ranges mouse1 max_iters c_map is_le FractalType.Mandelbrot =
      draw_fractal canvas axes_ranges mouse2 max_iters c_map is_le FractalType.Mandelbrot ∧
    draw_mandel canvas.width canvas.height axes_ranges.x_range.max axes_ranges.x_range.min
        axes_ranges.y_range.max axes_ranges.y_range.min max_iters c_map is_le =
      draw_fractal canvas axes_ranges mouse1 max_iters c_map is_le FractalType.Mandelbrot :=
  ⟨rfl, rfl⟩

/-! ## Buffer assembly infrastructure (C5, C6, C7) -/

/-- The four bytes a valid pixel write produces, as a total function of the
colour entry (coincides with `pixel_rgba` whenever the entry has at least
three channels). -/
def pixel_of (colour : List ℕ) (is_little_endian : Bool) : List ℕ :=
  if is_little_endian then
    [colour.getD 0 0 % 256, colour.getD 1 0 % 256, colour.getD 2 0 % 256, 0xff]
  else [0xff, colour.getD 2 0 % 256, colour.getD 1 0 % 256, colour.getD 0 0 % 256]

lemma pixel_of_length (colour : List ℕ) (le : Bool) : (pixel_of colour le).length = 4 := by
  cases le <;> rfl

lemma pixel_rgba_of_three (colour : List ℕ) (le : Bool) (h : 3 ≤ colour.length) :
    pixel_rgba colour le = some (pixel_of colour le) := by
  match colour with
  | [] => exact absurd h (by simp)
  | [a] => exact absurd h (by simp)
  | [a, b] => exact absurd h (by simp)
  | a :: b :: c :: t => cases le <;> simp [pixel_rgba, pixel_of]

lemma render_pixel_eq (cm : List (List ℕ)) (le : Bool) (idx : ℕ)
    (h1 : idx < cm.length) (h2 : 3 ≤ (cm.getD idx []).length) :
    render_pixel cm le idx = some (pixel_of (cm.getD idx []) le) := by
  have hD : cm.getD idx [] = cm[idx] := List.getD_eq_getElem cm [] h1
  have h2' : 3 ≤ cm[idx].length := by rwa [hD] at h2
  unfold render_pixel
  rw [List.getElem?_eq_getElem h1, Option.some_bind, hD]
  exact pixel_rgba_of_three cm[idx] le h2'

lemma drop_chunks {α : Type} (k : ℕ) :
    ∀ (i : ℕ) (L : List (List α)), (∀ x ∈ L, x.length = k) → i ≤ L.length →
      L.flatten.drop (k * i) = (L.drop i).flatten := by
  intro i
  induction i with
  | zero => intro L _ _; simp
  | succ n ih =>
    intro L hmem hlen
    cases L with
    | nil => simp at hlen
    | cons x xs =>
      have hx : x.length = k := hmem x (by simp)
      have hsplit : k * (n + 1) = x.length + k * n := by rw [hx]; ring
      rw [List.flatten_cons, hsplit, List.drop_append, List.drop_succ_cons]
      exact ih xs (fun y hy => hmem y (by simp [hy])) (by simpa using hlen)

lemma length_chunks {α : Type} (k : ℕ) :
    ∀ L : List (List α), (∀ x ∈ L, x.length = k) → L.flatten.length = k * L.length := by
  intro L
  induction L with
  | nil => intro _; simp
  | cons x xs ih =>
    intro hmem
    rw [List.flatten_cons, List.length_append, hmem x (by simp),
      ih (fun y hy => hmem y (by simp [hy]))]
    simp [List.length_cons]
    ring

lemma write_pixels_some (cm : List (List ℕ)) (le : Bool) (colour_of : ℕ × ℕ → ℕ)
    (f : ℕ × ℕ → List ℕ) :
    ∀ ps : List (ℕ × ℕ),
      (∀ p ∈ ps, render_pixel cm le (colour_of p) = some (f p)) →
      write_pixels cm le colour_of ps = some ((ps.map f).flatten) := by
  intro ps
  induction ps with
  | nil => intro _; rfl
  | cons p ps ih =>
    intro h
    have hp := h p (by simp)
    have hps := ih (fun q hq => h q (by simp [hq]))
    simp only [write_pixels, hp, hps, Option.some_bind, List.map_cons, List.flatten_cons]

lemma pixel_list_length (canvas : Dimensions) :
    (pixel_list canvas).length = canvas.height * canvas.width := by
  have hmem : ∀ x ∈ (List.range canvas.height).map
      (fun iy => (List.range canvas.width).map fun ix => (ix, iy)),
      x.length = canvas.width := by
    intro x hx
    obtain ⟨iy, -, rfl⟩ := List.mem_map.mp hx
    simp
  unfold pixel_list
  rw [length_chunks canvas.width _ hmem]
  simp [Nat.mul_comm]

lemma pixel_list_getElem (canvas : Dimensions) (ix iy : ℕ)
    (hx : ix < canvas.width) (hy : iy < canvas.height) :
    (pixel_list canvas)[iy * canvas.width + ix]? = some (ix, iy) := by
  have hmem : ∀ x ∈ (List.range canvas.height).map
      (fun iy => (List.range canvas.width).map fun ix => (ix, iy)),
      x.length = canvas.width := by
    intro x hxm
    obtain ⟨j, -, rfl⟩ := List.mem_map.mp hxm
    simp
  have hlen : ((List.range canvas.height).map
      (fun iy => (List.range canvas.width).map fun ix => (ix, iy))).length =
      canvas.height := by simp
  have hiy : iy < ((List.range canvas.height).map
      (fun iy => (List.range canvas.width).map fun ix => (ix, iy))).length := by omega
  have hdrop := drop_chunks canvas.width iy
    ((List.range canvas.height).map fun iy => (List.range canvas.width).map fun ix => (ix, iy))
    hmem (by omega)
  have hrowsiy : ((List.range canvas.height).map
      (fun iy => (List.range canvas.width).map fun ix => (ix, iy)))[iy] =
      (List.range canvas.width).map (fun ix => (ix, iy)) := by
    rw [List.getElem_map]
    rw [List.getElem_range]
  unfold pixel_list
  rw [show iy * canvas.width + ix = canvas.width * iy + ix by ring, ← List.getElem?_drop,
    hdrop, List.drop_eq_getElem_cons hiy, hrowsiy, List.flatten_cons,
    List.getElem?_append_left (by simp [hx]), List.getElem?_map, List.getElem?_range hx]
  rfl

lemma colour_index_le (ft : FractalType) (mouse coord : Point) (m : ℕ) :
    colour_index ft mouse coord m ≤ m := by
  cases ft
  · exact mandel_iter_le coord m
  · exact escape_time_go_le mouse m coord

lemma draw_fractal_some (canvas : Dimensions) (axes_ranges : AxesRanges) (mouse_loc : Point)
    (max_iters : ℕ) (cm : List (List ℕ)) (le : Bool) (ft : FractalType)
    (hw : 2 ≤ canvas.width) (hh : 2 ≤ canvas.height)
    (hcm : max_iters + 1 ≤ cm.length) (hch : ∀ c ∈ cm, 3 ≤ c.length) :
    ∃ out, draw_fractal canvas axes_ranges mouse_loc max_iters cm le ft = some out ∧
      out.data.length = canvas.width * canvas.height * 4 ∧
      ∀ ix iy, ix < canvas.width → iy < canvas.height →
        (out.data.drop ((iy * canvas.width + ix) * 4)).take 4 =
          pixel_of (cm.getD
            (colour_index ft mouse_loc (this_coord canvas axes_ranges ix iy) max_iters) [])
            le := by
  set colour_of : ℕ × ℕ → ℕ :=
    fun p => colour_index ft mouse_loc (this_coord canvas axes_ranges p.1 p.2) max_iters
    with hco
  set F : ℕ × ℕ → List ℕ := fun p => pixel_of (cm.getD (colour_of p) []) le with hF
  have hidx : ∀ p : ℕ × ℕ, colour_of p < cm.length := by
    intro p
    have hle := colour_index_le ft mouse_loc
      (this_coord canvas axes_ranges p.1 p.2) max_iters
    have : colour_of p ≤ max_iters := hle
    omega
  have hrp : ∀ p ∈ pixel_list canvas, render_pixel cm le (colour_of p) = some (F p) := by
    intro p _
    apply render_pixel_eq cm le (colour_of p) (hidx p)
    rw [List.getD_eq_getElem cm [] (hidx p)]
    exact hch _ (List.getElem_mem _)
  have himg : image_data canvas axes_ranges mouse_loc max_iters cm le ft =
      some (((pixel_list canvas).map F).flatten) :=
    write_pixels_some cm le colour_of F (pixel_list canvas) hrp
  have hchunk : ∀ x ∈ (pixel_list canvas).map F, x.length = 4 := by
    intro x hxm
    obtain ⟨p, -, rfl⟩ := List.mem_map.mp hxm
    exact pixel_of_length _ le
  have hlen : (((pixel_list canvas).map F).flatten).length =
      canvas.width * canvas.height * 4 := by
    rw [length_chunks 4 _ hchunk]
    simp [pixel_list_length]
    ring
  refine ⟨⟨((pixel_list canvas).map F).flatten,
    [DisplayAction.put_image_data (((pixel_list canvas).map F).flatten) 0 0]⟩, ?_, hlen, ?_⟩
  · have hguard : ¬ (canvas.width = 0 ∨ canvas.height = 0 ∨
        (((pixel_list canvas).map F).flatten).length ≠
          canvas.width * canvas.height * 4) := by
      push_neg
      exact ⟨by omega, by omega, hlen⟩
    unfold draw_fractal
    rw [himg, Option.some_bind, if_neg hguard]
  · intro ix iy hxlt hylt
    have hplen : (pixel_list canvas).length = canvas.height * canvas.width :=
      pixel_list_length canvas
    have hidxlt : iy * canvas.width + ix < canvas.height * canvas.width := by
      calc iy * canvas.width + ix < iy * canvas.width + canvas.width := by omega
        _ = (iy + 1) * canvas.width := by ring
        _ ≤ canvas.height * canvas.width := Nat.mul_le_mul_right _ (by omega)
    have hmlen : iy * canvas.width + ix < ((pixel_list canvas).map F).length := by
      rw [List.length_map, hplen]
      exact hidxlt
    have hdrop : (((pixel_list canvas).map F).flatten).drop
        (4 * (iy * canvas.width + ix)) =
        (((pixel_list canvas).map F).drop (iy * canvas.width + ix)).flatten :=
      drop_chunks 4 _ _ hchunk (by omega)
    have hget : ((pixel_list canvas).map F)[iy * canvas.width + ix]? = some (F (ix, iy)) := by
      rw [List.getElem?_map, pixel_list_getElem canvas ix iy hxlt hylt]
      rfl
    have hgetE : ((pixel_list canvas).map F)[iy * canvas.width + ix] = F (ix, iy) := by
      rw [List.getElem?_eq_getElem hmlen] at hget
      exact Option.some.inj hget
    rw [show (iy * canvas.width + ix) * 4 = 4 * (iy * canvas.width + ix) by ring, hdrop,
      List.drop_eq_getElem_cons hmlen, hgetE, List.flatten_cons,
      show (4 : ℕ) = (F (ix, iy)).length from (pixel_of_length _ le).symm,
      List.take_left]

/-! ## Buffer shape and byte layout (C5) -/

/-- C5: a render over a `w × h` canvas (extents ≥ 2, palette covering
`0..max_iterations` with ≥ 3 channels each) assembles a byte buffer of
length exactly `w·h·4`, with the pixel for `(ix, iy)` at byte offset
`(iy·w + ix)·4` (row-major); in the little-endian layout the pixel's four
bytes are `[R, G, B, 0xff]` (palette channel 0 at offset 0), in the
big-endian layout `[0xff, B, G, R]` (palette channel 0 at offset 3), and
the alpha byte is `0xff` in both. -/
theorem C5_buffer_layout (canvas : Dimensions) (axes_ranges : AxesRanges) (mouse_loc : Point)
    (max_iters : ℕ) (cm : List (List ℕ)) (le : Bool) (ft : FractalType)
    (hw : 2 ≤ canvas.width) (hh : 2 ≤ canvas.height)
    (hcm : max_iters + 1 ≤ cm.length) (hch : ∀ c ∈ cm, 3 ≤ c.length) :
    ∃ out, draw_fractal canvas axes_ranges mouse_loc max_iters cm le ft = some out ∧
      out.data.length = canvas.width * canvas.height * 4 ∧
      ∀ ix iy, ix < canvas.width → iy < canvas.height →
        (out.data.drop ((iy * canvas.width + ix) * 4)).take 4 =
          (if le then
            [(cm.getD (colour_index ft mouse_loc (this_coord canvas axes_ranges ix iy)
                max_iters) []).getD 0 0 % 256,
             (cm.getD (colour_index ft mouse_loc (this_coord canvas axes_ranges ix iy)
                max_iters) []).getD 1 0 % 256,
             (cm.getD (colour_index ft mouse_loc (this_coord canvas axes_ranges ix iy)
                max_iters) []).getD 2 0 % 256, 0xff]
          else
            [0xff,
             (cm.getD (colour_index ft mouse_loc (this_coord canvas axes_ranges ix iy)
                max_iters) []).getD 2 0 % 256,
             (cm.getD (colour_index ft mouse_loc (this_coord canvas axes_ranges ix iy)
                max_iters) []).getD 1 0 % 256,
             (cm.getD (colour_index ft mouse_loc (this_coord canvas axes_ranges ix iy)
                max_iters) []).getD 0 0 % 256]) := by
  obtain ⟨out, h1, h2, h3⟩ :=
    draw_fractal_some canvas axes_ranges mouse_loc max_iters cm le ft hw hh hcm hch
  refine ⟨out, h1, h2, ?_⟩
  intro ix iy hxlt hylt
  rw [h3 ix iy hxlt hylt]
  cases le <;> rfl

/-- Witness for C5: a 2×2 Mandelbrot render over the window `[0,1]²` with
cap 1 and palette `[[1,2,3],[300,5,6]]` in little-endian layout. -/
theorem C5_buffer_layout_witness :
    ∃ out, draw_fractal ⟨2, 2⟩ ⟨⟨0, 1⟩, ⟨0, 1⟩⟩ ⟨0, 0⟩ 1 [[1, 2, 3], [300, 5, 6]] true
        FractalType.Mandelbrot = some out ∧
      out.data.length = 2 * 2 * 4 ∧
      ∀ ix iy, ix < 2 → iy < 2 →
        (out.data.drop ((iy * 2 + ix) * 4)).take 4 =
          (if true then
            [([[1, 2, 3], [300, 5, 6]].getD (colour_index FractalType.Mandelbrot ⟨0, 0⟩
                (this_coord ⟨2, 2⟩ ⟨⟨0, 1⟩, ⟨0, 1⟩⟩ ix iy) 1) []).getD 0 0 % 256,
             ([[1, 2, 3], [300, 5, 6]].getD (colour_index FractalType.Mandelbrot ⟨0, 0⟩
                (this_coord ⟨2, 2⟩ ⟨⟨0, 1⟩, ⟨0, 1⟩⟩ ix iy) 1) []).getD 1 0 % 256,
             ([[1, 2, 3], [300, 5, 6]].getD (colour_index FractalType.Mandelbrot ⟨0, 0⟩
                (this_coord ⟨2, 2⟩ ⟨⟨0, 1⟩, ⟨0, 1⟩⟩ ix iy) 1) []).getD 2 0 % 256, 0xff]
          else
            [0xff,
             ([[1, 2, 3], [300, 5, 6]].getD (colour_index FractalType.Mandelbrot ⟨0, 0⟩
                (this_coord ⟨2, 2⟩ ⟨⟨0, 1⟩, ⟨0, 1⟩⟩ ix iy) 1) []).getD 2 0 % 256,
             ([[1, 2, 3], [300, 5, 6]].getD (colour_index FractalType.Mandelbrot ⟨0, 0⟩
                (this_coord ⟨2, 2⟩ ⟨⟨0, 1⟩, ⟨0, 1⟩⟩ ix iy) 1) []).getD 1 0 % 256,
             ([[1, 2, 3], [300, 5, 6]].getD (colour_index FractalType.Mandelbrot ⟨0, 0⟩
                (this_coord ⟨2, 2⟩ ⟨⟨0, 1⟩, ⟨0, 1⟩⟩ ix iy) 1) []).getD 0 0 % 256]) :=
  C5_buffer_layout ⟨2, 2⟩ ⟨⟨0, 1⟩, ⟨0, 1⟩⟩ ⟨0, 0⟩ 1 [[1, 2, 3], [300, 5, 6]] true
    FractalType.Mandelbrot (by decide) (by decide) (by decide) (by decide)

/-! ## Precondition handling (C6) -/

/-- C6 counterexample: the claim says every precondition-violating call
(here: `x_min = x_max = 0`, violating min < max) fails fast with a
descriptive error; but the code performs no validation — the render
succeeds and silently produces a full 16-byte buffer. -/
theorem C6_counterexample :
    (draw_mandel 2 2 0 0 1 0 1 [[0, 0, 0], [0, 0, 0]] true).isSome = true ∧
    (draw_mandel 2 2 0 0 1 0 1 [[0, 0, 0], [0, 0, 0]] true).map
      (fun out => out.data.length) = some 16 := by
  with_unfolding_all decide

/-- C6 amended: the code validates nothing.  A window violation such as
`min ≥ max` on the x axis is never detected: the render silently succeeds
and produces a full `w·h·4`-byte buffer.  An undersized palette (shorter
than `max_iterations + 1`) is not detected up front either: the render
aborts with a Rust index-out-of-bounds panic (modelled: the call returns
`none` — a safe fail-fast abort, not an out-of-bounds access, but not a
descriptive precondition error) exactly when some pixel's iteration count
reaches an index beyond the palette — an empty palette always aborts, and
cap 1 with a 1-entry palette aborts — but it silently succeeds with a
full buffer when every pixel's count stays inside the palette, e.g. cap 10
with a 2-entry palette over the window `[10,11]²`, where every pixel
escapes at count 1. -/
theorem C6_no_validation (canvas : Dimensions) (axes_ranges : AxesRanges) (mouse_loc : Point)
    (max_iters : ℕ) (le : Bool) (ft : FractalType)
    (hw : 2 ≤ canvas.width) (hh : 2 ≤ canvas.height)
    (_hviol : axes_ranges.x_range.max ≤ axes_ranges.x_range.min) :
    draw_fractal canvas axes_ranges mouse_loc max_iters [] le ft = none ∧
    (∃ out, draw_fractal canvas axes_ranges mouse_loc max_iters
        (List.replicate (max_iters + 1) [0, 0, 0]) le ft = some out ∧
      out.data.length = canvas.width * canvas.height * 4) ∧
    (draw_mandel 2 2 11 10 11 10 10 [[0, 0, 0], [0, 0, 0]] true).map
      (fun out => out.data.length) = some 16 ∧
    draw_mandel 2 2 1 0 1 0 1 [[0, 0, 0]] true = none := by
  refine ⟨?_, ?_, by with_unfolding_all decide, by with_unfolding_all decide⟩
  · have hne : pixel_list canvas ≠ [] := by
      intro hnil
      have hlenp := pixel_list_length canvas
      rw [hnil] at hlenp
      simp at hlenp
      rcases hlenp with h | h <;> omega
    obtain ⟨p, ps, hps⟩ := List.exists_cons_of_ne_nil hne
    unfold draw_fractal image_data
    rw [hps]
    simp [write_pixels, render_pixel]
  · obtain ⟨out, h1, h2, -⟩ := draw_fractal_some canvas axes_ranges mouse_loc max_iters
      (List.replicate (max_iters + 1) [0, 0, 0]) le ft hw hh (by simp)
      (fun c hc => by rw [List.eq_of_mem_replicate hc]; decide)
    exact ⟨out, h1, h2⟩

/-- Witness for C6: a 2×2 render with the degenerate x-window `[0, 0]`. -/
theorem C6_no_validation_witness :
    draw_fractal ⟨2, 2⟩ ⟨⟨0, 0⟩, ⟨0, 1⟩⟩ ⟨0, 0⟩ 1 [] true FractalType.Mandelbrot = none ∧
    (∃ out, draw_fractal ⟨2, 2⟩ ⟨⟨0, 0⟩, ⟨0, 1⟩⟩ ⟨0, 0⟩ 1
        (List.replicate 2 [0, 0, 0]) true FractalType.Mandelbrot = some out ∧
      out.data.length = 2 * 2 * 4) ∧
    (draw_mandel 2 2 11 10 11 10 10 [[0, 0, 0], [0, 0, 0]] true).map
      (fun out => out.data.length) = some 16 ∧
    draw_mandel 2 2 1 0 1 0 1 [[0, 0, 0]] true = none :=
  C6_no_validation ⟨2, 2⟩ ⟨⟨0, 0⟩, ⟨0, 1⟩⟩ ⟨0, 0⟩ 1 true FractalType.Mandelbrot
    (by decide) (by decide) le_rfl

/-! ## Display side effect (C7) -/

/-- C7 counterexample: the claim says the render operations have no side
effect beyond producing the buffer and do not touch any display surface;
but on a concrete successful call the effect trace of `draw_mandel`
(through `draw_fractal`, which ends with `ctx.put_image_data`) is
nonempty. -/
theorem C7_counterexample :
    (draw_mandel 2 2 1 0 1 0 1 [[0, 0, 0], [0, 0, 0]] true).map
      (fun out => out.effects.isEmpty) = some false := by
  with_unfolding_all decide

/-- C7 amended: the render operations do touch the display surface
themselves — every successful `draw_fractal` call (hence `draw_mandel` and
`draw_julia`, which merely wrap it) performs exactly one display call,
`put_image_data(buffer, 0, 0)`; delivery of the buffer is not left to the
caller. -/
theorem C7_blit_effect (canvas : Dimensions) (axes_ranges : AxesRanges) (mouse_loc : Point)
    (max_iters : ℕ) (c_map : List (List ℕ)) (le : Bool) (ft : FractalType)
    (out : RenderOutput)
    (h : draw_fractal canvas axes_ranges mouse_loc max_iters c_map le ft = some out) :
    out.effects = [DisplayAction.put_image_data out.data 0 0] ∧
    draw_mandel canvas.width canvas.height axes_ranges.x_range.max axes_ranges.x_range.min
        axes_ranges.y_range.max axes_ranges.y_range.min max_iters c_map le =
      draw_fractal canvas axes_ranges ⟨0, 0⟩ max_iters c_map le FractalType.Mandelbrot := by
  refine ⟨?_, rfl⟩
  unfold draw_fractal at h
  cases himg : image_data canvas axes_ranges mouse_loc max_iters c_map le ft with
  | none => rw [himg] at h; simp at h
  | some data =>
    rw [himg, Option.some_bind] at h
    split at h
    · simp at h
    · cases Option.some.inj h
      rfl

/-- The 2×2 little-endian Mandelbrot render over `[0,1]²` with cap 1 and
palette `[[0,0,0],[0,0,0]]`: every pixel gets colour 1 = `[0,0,0]`. -/
def sample_data : List ℕ :=
  [0, 0, 0, 255, 0, 0, 0, 255, 0, 0, 0, 255, 0, 0, 0, 255]

/-- The full output of that render: the buffer plus the single blit. -/
def sample_out : RenderOutput :=
  { data := sample_data, effects := [DisplayAction.put_image_data sample_data 0 0] }

/-- Witness for C7 at that concrete render. -/
theorem C7_blit_effect_witness :
    sample_out.effects = [DisplayAction.put_image_data sample_out.data 0 0] ∧
    draw_mandel 2 2 1 0 1 0 1 [[0, 0, 0], [0, 0, 0]] true =
      draw_fractal ⟨2, 2⟩ ⟨⟨0, 1⟩, ⟨0, 1⟩⟩ ⟨0, 0⟩ 1 [[0, 0, 0], [0, 0, 0]] true
        FractalType.Mandelbrot :=
  C7_blit_effect ⟨2, 2⟩ ⟨⟨0, 1⟩, ⟨0, 1⟩⟩ ⟨0, 0⟩ 1 [[0, 0, 0], [0, 0, 0]] true
    FractalType.Mandelbrot sample_out (by with_unfolding_all decide)

end Fractal
